import Mathlib

/-!
Shallow embedding of the AVR cooperative round-robin scheduler
(`scheduler.c` / `scheduler.h`) and proofs about its specification.

The task control block array `task_t tasks[MAX_TASKS]` is modelled as a
total function `Nat → Task` (unused slots keep their memset-zero contents,
whose `state` field is `TASK_READY = 0`), together with the `task_count`,
`current_task`, `scheduler_running` globals and the debug counters.
Hardware-only aspects (stack images, register frames, the timer registers)
are outside the state machine; the `SCHEDULER_DEBUG` build is modelled, so
the debug counters are part of the state.
-/

namespace AvrScheduler

/-- `MAX_TASKS` from scheduler.h. -/
def MAX_TASKS : Nat := 8

/-- `task_state_t` from scheduler.h: TASK_READY, TASK_RUNNING, TASK_BLOCKED,
TASK_SUSPENDED. -/
inductive TaskState where
  | ready
  | running
  | blocked
  | suspended
deriving DecidableEq, Repr

/-- The scheduler-visible fields of `task_t` (the stack image and saved stack
pointer are hardware state not touched by the scheduling logic). Default
values are the memset-zero contents set up by `scheduler_init`
(`TASK_READY` is the zero enumerator). -/
structure Task where
  state : TaskState := TaskState.ready
  task_id : Nat := 0
  delay_ticks : Nat := 0
  runtime_ticks : Nat := 0
  times_scheduled : Nat := 0
deriving DecidableEq, Repr

instance : Inhabited Task := ⟨{}⟩

/-- The global scheduler state: `tasks[]`, `task_count`, `current_task`,
`scheduler_running`, and the `debug_stats` counters. -/
structure Sched where
  tasks : Nat → Task
  task_count : Nat
  current_task : Nat
  scheduler_running : Bool
  total_ticks : Nat
  context_switches : Nat
  voluntary_yields : Nat

/-- Write task control block `i` (array store `tasks[i] = t`). -/
def Sched.setTask (s : Sched) (i : Nat) (t : Task) : Sched :=
  { s with tasks := fun j => if j = i then t else s.tasks j }

/-- `scheduler_init()`: empty registry, everything zeroed (the timer
configuration writes are hardware-only). -/
def scheduler_init : Sched :=
  { tasks := fun _ => {}
    task_count := 0
    current_task := 0
    scheduler_running := false
    total_ticks := 0
    context_switches := 0
    voluntary_yields := 0 }

/-- The two ways `scheduler_add_task` can fail; the C code returns `-1` for
both, checking the capacity disjunct first. -/
inductive AddError where
  | capacityExceeded
  | invalidEntry
deriving DecidableEq, Repr

/-- `scheduler_add_task(task_function)`. The entry pointer is abstracted to
whether it is NULL (`entry_null`); the stack-image synthesis by
`init_stack` is hardware-only. The C code does not touch the slot's debug
counters, so they keep their previous (memset-zero) values. -/
def scheduler_add_task (s : Sched) (entry_null : Bool) : Except AddError Nat × Sched :=
  if s.task_count ≥ MAX_TASKS then
    (Except.error AddError.capacityExceeded, s)
  else if entry_null then
    (Except.error AddError.invalidEntry, s)
  else
    let task_id := s.task_count
    let s' := s.setTask task_id
      { state := TaskState.ready
        task_id := task_id
        delay_ticks := 0
        runtime_ticks := (s.tasks task_id).runtime_ticks
        times_scheduled := (s.tasks task_id).times_scheduled }
    (Except.ok task_id, { s' with task_count := s.task_count + 1 })

/-- `scheduler_start()`: with no tasks it hangs in `while(1)` (modelled as
`none`); otherwise task 0 becomes Running and the running flag is set
(the context restore that never returns is hardware-only). -/
def scheduler_start (s : Sched) : Option Sched :=
  if s.task_count = 0 then
    none
  else
    let s1 := { s with current_task := 0 }
    let s2 := s1.setTask s1.current_task
      { s1.tasks s1.current_task with state := TaskState.running }
    some { s2 with scheduler_running := true }

/-- The per-task body of the delay loop in `ISR(TIMER0_COMPA_vect)`:
decrement a positive `delay_ticks`; when it reaches zero and the task is
Blocked, wake it to Ready. -/
def tickTask (t : Task) : Task :=
  if t.delay_ticks > 0 then
    let t' := { t with delay_ticks := t.delay_ticks - 1 }
    if t'.delay_ticks = 0 ∧ t'.state = TaskState.blocked then
      { t' with state := TaskState.ready }
    else t'
  else t

/-- `ISR(TIMER0_COMPA_vect)`: no-op unless running with at least one task;
counts the tick, credits runtime to a Running current task, then runs the
delay-processing loop over slots `0 .. task_count-1`. -/
def tick_isr (s : Sched) : Sched :=
  if s.scheduler_running = false ∨ s.task_count = 0 then s
  else
    let s1 := { s with total_ticks := s.total_ticks + 1 }
    let s2 :=
      if (s1.tasks s1.current_task).state = TaskState.running then
        s1.setTask s1.current_task
          { s1.tasks s1.current_task with
            runtime_ticks := (s1.tasks s1.current_task).runtime_ticks + 1 }
      else s1
    { s2 with tasks := fun i => if i < s2.task_count then tickTask (s2.tasks i) else s2.tasks i }

/-- `scheduler_suspend_task(task_id)`: unconditional state overwrite for a
valid id, silent no-op otherwise. -/
def scheduler_suspend_task (s : Sched) (task_id : Nat) : Sched :=
  if task_id < s.task_count then
    s.setTask task_id { s.tasks task_id with state := TaskState.suspended }
  else s

/-- `scheduler_resume_task(task_id)`: only a Suspended task with a valid id
goes back to Ready. -/
def scheduler_resume_task (s : Sched) (task_id : Nat) : Sched :=
  if task_id < s.task_count ∧ (s.tasks task_id).state = TaskState.suspended then
    s.setTask task_id { s.tasks task_id with state := TaskState.ready }
  else s

/-- Dispatcher eligibility test from `scheduler_yield`:
`state == TASK_READY || state == TASK_RUNNING`. -/
def Task.eligible (t : Task) : Bool :=
  match t.state with
  | TaskState.ready => true
  | TaskState.running => true
  | _ => false

/-- The `do { next = (next+1) % count; ... } while` scan of
`scheduler_yield`, with the remaining probe budget (`task_count -
tasks_checked`) made explicit as fuel. Returns the last probed slot. -/
def scanNext (elig : Nat → Bool) (count : Nat) : Nat → Nat → Nat
  | next, 0 => next
  | next, fuel + 1 =>
    if elig ((next + 1) % count) then (next + 1) % count
    else scanNext elig count ((next + 1) % count) fuel

/-- The slot selected by `scheduler_yield`'s round-robin scan. -/
def yieldNext (s : Sched) : Nat :=
  scanNext (fun i => (s.tasks i).eligible) s.task_count s.current_task s.task_count

/-- The `if (next_task != current_task && tasks[next_task].state !=
TASK_BLOCKED)` test of `scheduler_yield`. -/
def yieldCond (s : Sched) : Prop :=
  yieldNext s ≠ s.current_task ∧ (s.tasks (yieldNext s)).state ≠ TaskState.blocked

instance (s : Sched) : Decidable (yieldCond s) := by
  unfold yieldCond; infer_instance

/-- The switch branch of `scheduler_yield`: count the context switch and
the selected task's scheduling, demote a Running caller to Ready, move
`current_task` to the selected slot and mark it Running. -/
def yieldSwitch (s : Sched) (next : Nat) : Sched :=
  let s1 := { s with context_switches := s.context_switches + 1 }
  let s2 := s1.setTask next
    { s1.tasks next with times_scheduled := (s1.tasks next).times_scheduled + 1 }
  let s3 :=
    if (s2.tasks s2.current_task).state = TaskState.running then
      s2.setTask s2.current_task
        { s2.tasks s2.current_task with state := TaskState.ready }
    else s2
  let s4 := { s3 with current_task := next }
  s4.setTask next { s4.tasks next with state := TaskState.running }

/-- The state transformation of a `scheduler_yield` call that is defined
(i.e. `task_count > 0`): count the voluntary yield, run the round-robin
scan and, when the selected task differs from the caller and is not
Blocked, perform the bookkeeping switch. -/
def yieldEffect (s : Sched) : Sched :=
  let s0 := { s with voluntary_yields := s.voluntary_yields + 1 }
  if yieldCond s0 then yieldSwitch s0 (yieldNext s0) else s0

/-- `scheduler_yield()`. With `task_count == 0` the scan computes
`(next + 1) % 0`, which is undefined behaviour in C (there is no guard);
that case is modelled as `none`. -/
def scheduler_yield (s : Sched) : Option Sched :=
  if s.task_count = 0 then none else some (yieldEffect s)

/-- `task_delay(ticks)`: zero ticks is an early return; otherwise the
current task is marked Blocked with the counter set (done atomically
under cli) and the scheduler yields. -/
def task_delay (s : Sched) (ticks : Nat) : Option Sched :=
  if ticks = 0 then some s
  else
    scheduler_yield (s.setTask s.current_task
      { s.tasks s.current_task with delay_ticks := ticks, state := TaskState.blocked })

/-- The state effect of `task_exit()` before its `while(1) scheduler_yield()`
loop: the returning task is marked Blocked. -/
def task_exit_mark (s : Sched) : Sched :=
  s.setTask s.current_task { s.tasks s.current_task with state := TaskState.blocked }

/-- `scheduler_get_current_task()`. -/
def scheduler_get_current_task (s : Sched) : Nat := s.current_task

/-- `scheduler_get_task_count()`. -/
def scheduler_get_task_count (s : Sched) : Nat := s.task_count

/-- `scheduler_get_task_stats(task_id, runtime_ticks, times_scheduled)`.
The two output pointers are modelled by whether they are NULL; the returned
options record what is written through them (`none` = no write). -/
def scheduler_get_task_stats (s : Sched) (task_id : Nat)
    (runtime_null times_null : Bool) : Int × Option Nat × Option Nat :=
  if task_id ≥ s.task_count then
    (-1, none, none)
  else
    (0,
     if runtime_null then none else some (s.tasks task_id).runtime_ticks,
     if times_null then none else some (s.tasks task_id).times_scheduled)

/-! ### Basic facts about the embedding -/

@[simp]
theorem setTask_tasks (s : Sched) (i : Nat) (t : Task) (j : Nat) :
    (s.setTask i t).tasks j = if j = i then t else s.tasks j := rfl

@[simp]
theorem setTask_task_count (s : Sched) (i : Nat) (t : Task) :
    (s.setTask i t).task_count = s.task_count := rfl

@[simp]
theorem setTask_current_task (s : Sched) (i : Nat) (t : Task) :
    (s.setTask i t).current_task = s.current_task := rfl

@[simp]
theorem setTask_scheduler_running (s : Sched) (i : Nat) (t : Task) :
    (s.setTask i t).scheduler_running = s.scheduler_running := rfl

@[simp]
theorem setTask_voluntary_yields (s : Sched) (i : Nat) (t : Task) :
    (s.setTask i t).voluntary_yields = s.voluntary_yields := rfl

@[simp]
theorem setTask_context_switches (s : Sched) (i : Nat) (t : Task) :
    (s.setTask i t).context_switches = s.context_switches := rfl

theorem eligible_iff (t : Task) :
    t.eligible = true ↔ (t.state = TaskState.ready ∨ t.state = TaskState.running) := by
  cases h : t.state <;> simp [Task.eligible, h]

theorem eligible_of_state_ready {t : Task} (h : t.state = TaskState.ready) :
    t.eligible = true := (eligible_iff t).mpr (Or.inl h)

theorem eligible_of_state_running {t : Task} (h : t.state = TaskState.running) :
    t.eligible = true := (eligible_iff t).mpr (Or.inr h)

theorem state_ne_blocked_of_eligible {t : Task} (h : t.eligible = true) :
    t.state ≠ TaskState.blocked := by
  rcases (eligible_iff t).mp h with h' | h' <;> simp [h']

/-! ### The round-robin scan -/

theorem scanNext_lt (elig : Nat → Bool) {n : Nat} (hn : 0 < n) :
    ∀ fuel next, 0 < fuel → scanNext elig n next fuel < n := by
  intro fuel
  induction fuel with
  | zero => intro next h; omega
  | succ f ih =>
    intro next _
    simp only [scanNext]
    split
    · exact Nat.mod_lt _ hn
    · rcases Nat.eq_zero_or_pos f with hf | hf
      · subst hf; simpa [scanNext] using Nat.mod_lt (next + 1) hn
      · exact ih _ hf

/-- The scan returns the first probed slot satisfying the predicate: probe
`j'` inspects slot `(next + 1 + j') % n`. -/
theorem scanNext_spec (elig : Nat → Bool) {n : Nat} :
    ∀ (fuel j next : Nat), j < fuel →
      elig ((next + 1 + j) % n) = true →
      (∀ j', j' < j → elig ((next + 1 + j') % n) = false) →
      scanNext elig n next fuel = (next + 1 + j) % n := by
  intro fuel
  induction fuel with
  | zero => intro j next h; omega
  | succ f ih =>
    intro j next hj hyes hno
    cases j with
    | zero =>
      have h1 : elig ((next + 1) % n) = true := by simpa using hyes
      simp [scanNext, h1]
    | succ jj =>
      have h0 : elig ((next + 1) % n) = false := by
        simpa using hno 0 (Nat.succ_pos jj)
      have hrw : ∀ m : Nat, ((next + 1) % n + 1 + m) % n = (next + 1 + (m + 1)) % n := by
        intro m
        rw [Nat.add_assoc, Nat.mod_add_mod]
        congr 1
        omega
      have hyes' : elig (((next + 1) % n + 1 + jj) % n) = true := by
        rw [hrw jj]; exact hyes
      have hno' : ∀ j', j' < jj → elig (((next + 1) % n + 1 + j') % n) = false := by
        intro j' hj'
        rw [hrw j']
        exact hno (j' + 1) (by omega)
      have hmain := ih jj ((next + 1) % n) (by omega) hyes' hno'
      simp only [scanNext, h0, Bool.false_eq_true, if_false]
      rw [hmain, hrw jj]

/-- When no slot is eligible the scan consumes all its fuel and returns
`(next + fuel) % n`. -/
theorem scanNext_all_false (elig : Nat → Bool) {n : Nat} (hn : 0 < n) :
    ∀ (fuel next : Nat), 0 < fuel → (∀ i, i < n → elig i = false) →
      scanNext elig n next fuel = (next + fuel) % n := by
  intro fuel
  induction fuel with
  | zero => intro next h; omega
  | succ f ih =>
    intro next _ hall
    have hnx : elig ((next + 1) % n) = false := hall _ (Nat.mod_lt _ hn)
    simp only [scanNext, hnx, Bool.false_eq_true, if_false]
    rcases Nat.eq_zero_or_pos f with hf | hf
    · subst hf
      simp [scanNext]
    · rw [ih _ hf hall, Nat.mod_add_mod]
      congr 1
      omega

/-- Every slot below `n` is hit by some probe below `n`. -/
theorem probe_surj {n : Nat} (hn : 0 < n) (c i : Nat) (hi : i < n) :
    ∃ j, j < n ∧ (c + 1 + j) % n = i := by
  have hr : (c + 1) % n < n := Nat.mod_lt _ hn
  by_cases hle : (c + 1) % n ≤ i
  · refine ⟨i - (c + 1) % n, by omega, ?_⟩
    rw [← Nat.mod_add_mod]
    have : (c + 1) % n + (i - (c + 1) % n) = i := by omega
    rw [this, Nat.mod_eq_of_lt hi]
  · refine ⟨i + n - (c + 1) % n, by omega, ?_⟩
    rw [← Nat.mod_add_mod]
    have : (c + 1) % n + (i + n - (c + 1) % n) = i + n := by omega
    rw [this, Nat.add_mod_right, Nat.mod_eq_of_lt hi]

/-- Probing is injective on slots below `n`. -/
theorem probe_inj {n : Nat} (c : Nat) {a b : Nat} (ha : a < n) (hb : b < n)
    (h : (c + 1 + a) % n = (c + 1 + b) % n) : a = b := by
  have h0 : a ≡ b [MOD n] := Nat.ModEq.add_left_cancel' (c + 1) h
  have h' : a % n = b % n := h0
  rwa [Nat.mod_eq_of_lt ha, Nat.mod_eq_of_lt hb] at h'

/-! ### Characterizing a yield -/

theorem yieldNext_vy (s : Sched) (v : Nat) :
    yieldNext { s with voluntary_yields := v } = yieldNext s := rfl

theorem yieldCond_vy (s : Sched) (v : Nat) :
    yieldCond { s with voluntary_yields := v } ↔ yieldCond s := Iff.rfl

theorem yieldEffect_noswitch (s : Sched) (h : ¬ yieldCond s) :
    yieldEffect s = { s with voluntary_yields := s.voluntary_yields + 1 } := by
  simp only [yieldEffect]
  rw [if_neg (fun hc => h ((yieldCond_vy s _).mp hc))]

theorem yieldSwitch_current (s : Sched) (next : Nat) :
    (yieldSwitch s next).current_task = next := rfl

theorem yieldSwitch_task_count (s : Sched) (next : Nat) :
    (yieldSwitch s next).task_count = s.task_count := by
  simp only [yieldSwitch, Sched.setTask]
  split <;> split <;> rfl

theorem yieldSwitch_scheduler_running (s : Sched) (next : Nat) :
    (yieldSwitch s next).scheduler_running = s.scheduler_running := by
  simp only [yieldSwitch, Sched.setTask]
  split <;> split <;> rfl

theorem yieldSwitch_total_ticks (s : Sched) (next : Nat) :
    (yieldSwitch s next).total_ticks = s.total_ticks := by
  simp only [yieldSwitch, Sched.setTask]
  split <;> split <;> rfl

theorem yieldSwitch_voluntary_yields (s : Sched) (next : Nat) :
    (yieldSwitch s next).voluntary_yields = s.voluntary_yields := by
  simp only [yieldSwitch, Sched.setTask]
  split <;> split <;> rfl

theorem yieldSwitch_context_switches (s : Sched) (next : Nat) :
    (yieldSwitch s next).context_switches = s.context_switches + 1 := by
  simp only [yieldSwitch, Sched.setTask]
  split <;> split <;> rfl

theorem yieldSwitch_tasks (s : Sched) (next : Nat) (hne : s.current_task ≠ next) (i : Nat) :
    (yieldSwitch s next).tasks i =
      if i = next then
        { s.tasks next with
          state := TaskState.running,
          times_scheduled := (s.tasks next).times_scheduled + 1 }
      else if i = s.current_task ∧ (s.tasks s.current_task).state = TaskState.running then
        { s.tasks i with state := TaskState.ready }
      else s.tasks i := by
  simp only [yieldSwitch, Sched.setTask]
  by_cases hrun : (s.tasks s.current_task).state = TaskState.running <;>
    by_cases hi : i = next <;>
      by_cases hic : i = s.current_task <;>
        simp_all

theorem yieldEffect_current_switch (s : Sched) (h : yieldCond s) :
    (yieldEffect s).current_task = yieldNext s := by
  simp only [yieldEffect]
  rw [if_pos ((yieldCond_vy s _).mpr h), yieldSwitch_current, yieldNext_vy]

theorem yieldEffect_context_switches_switch (s : Sched) (h : yieldCond s) :
    (yieldEffect s).context_switches = s.context_switches + 1 := by
  simp only [yieldEffect]
  rw [if_pos ((yieldCond_vy s _).mpr h), yieldSwitch_context_switches]

theorem yieldEffect_tasks_switch (s : Sched) (h : yieldCond s) (i : Nat) :
    (yieldEffect s).tasks i =
      if i = yieldNext s then
        { s.tasks (yieldNext s) with
          state := TaskState.running,
          times_scheduled := (s.tasks (yieldNext s)).times_scheduled + 1 }
      else if i = s.current_task ∧ (s.tasks s.current_task).state = TaskState.running then
        { s.tasks i with state := TaskState.ready }
      else s.tasks i := by
  have hne : s.current_task ≠ yieldNext s := fun he => h.1 he.symm
  simp only [yieldEffect]
  rw [if_pos ((yieldCond_vy s _).mpr h)]
  rw [yieldSwitch_tasks _ _ (by simpa [yieldNext_vy] using hne) i]
  simp [yieldNext_vy]

theorem yieldEffect_task_count (s : Sched) :
    (yieldEffect s).task_count = s.task_count := by
  simp only [yieldEffect]
  split
  · rw [yieldSwitch_task_count]
  · rfl

theorem yieldEffect_scheduler_running (s : Sched) :
    (yieldEffect s).scheduler_running = s.scheduler_running := by
  simp only [yieldEffect]
  split
  · rw [yieldSwitch_scheduler_running]
  · rfl

theorem yieldEffect_total_ticks (s : Sched) :
    (yieldEffect s).total_ticks = s.total_ticks := by
  simp only [yieldEffect]
  split
  · rw [yieldSwitch_total_ticks]
  · rfl

theorem yieldEffect_voluntary_yields (s : Sched) :
    (yieldEffect s).voluntary_yields = s.voluntary_yields + 1 := by
  simp only [yieldEffect]
  split
  · rw [yieldSwitch_voluntary_yields]
  · rfl

/-- With a valid current slot, the scan either selects an eligible task or
falls back to the caller itself after a full wrap. -/
theorem yieldNext_eligible_or_current (s : Sched) (hn : 0 < s.task_count)
    (hcur : s.current_task < s.task_count) :
    (s.tasks (yieldNext s)).eligible = true ∨ yieldNext s = s.current_task := by
  by_cases hex : ∃ i, i < s.task_count ∧ (s.tasks i).eligible = true
  · left
    obtain ⟨i, hi, he⟩ := hex
    obtain ⟨j, hj, hpj⟩ := probe_surj hn s.current_task i hi
    have hP : ∃ m, (s.tasks ((s.current_task + 1 + m) % s.task_count)).eligible = true :=
      ⟨j, by rw [hpj]; exact he⟩
    have hle : Nat.find hP ≤ j := Nat.find_min' hP (by rw [hpj]; exact he)
    have hlt : Nat.find hP < s.task_count := Nat.lt_of_le_of_lt hle hj
    have hspec := Nat.find_spec hP
    have hmin : ∀ m, m < Nat.find hP →
        (s.tasks ((s.current_task + 1 + m) % s.task_count)).eligible = false := by
      intro m hm
      have hne := Nat.find_min hP hm
      revert hne
      cases (s.tasks ((s.current_task + 1 + m) % s.task_count)).eligible <;> simp
    have hyn : yieldNext s = (s.current_task + 1 + Nat.find hP) % s.task_count := by
      unfold yieldNext
      exact scanNext_spec _ _ (Nat.find hP) _ hlt hspec hmin
    rw [hyn]
    exact hspec
  · right
    have hall : ∀ i, i < s.task_count → (s.tasks i).eligible = false := by
      intro i hi
      by_contra hcon
      refine hex ⟨i, hi, ?_⟩
      revert hcon
      cases (s.tasks i).eligible <;> simp
    unfold yieldNext
    rw [scanNext_all_false _ hn _ _ hn hall, Nat.add_mod_right, Nat.mod_eq_of_lt hcur]

theorem yieldNext_lt (s : Sched) (hn : 0 < s.task_count) :
    yieldNext s < s.task_count := by
  unfold yieldNext
  exact scanNext_lt _ hn _ _ hn

/-! ### Characterizing a tick -/

theorem tick_isr_noop (s : Sched)
    (h : s.scheduler_running = false ∨ s.task_count = 0) : tick_isr s = s := by
  simp only [tick_isr]
  rw [if_pos h]

/-- `tickTask` reads only the state and delay fields. -/
theorem tickTask_congr (t u : Task) (hs : u.state = t.state)
    (hd : u.delay_ticks = t.delay_ticks) :
    (tickTask u).state = (tickTask t).state ∧
    (tickTask u).delay_ticks = (tickTask t).delay_ticks := by
  obtain ⟨ts, ti, td, tr, tc⟩ := t
  obtain ⟨us, ui, ud, ur, uc⟩ := u
  dsimp only at hs hd
  subst hs
  subst hd
  constructor <;> (dsimp only [tickTask]; split_ifs <;> rfl)

theorem tick_isr_task_count (s : Sched) : (tick_isr s).task_count = s.task_count := by
  simp only [tick_isr, Sched.setTask]
  split
  · rfl
  · split <;> rfl

theorem tick_isr_current_task (s : Sched) : (tick_isr s).current_task = s.current_task := by
  simp only [tick_isr, Sched.setTask]
  split
  · rfl
  · split <;> rfl

theorem tick_isr_scheduler_running (s : Sched) :
    (tick_isr s).scheduler_running = s.scheduler_running := by
  simp only [tick_isr, Sched.setTask]
  split
  · rfl
  · split <;> rfl

theorem tick_isr_context_switches (s : Sched) :
    (tick_isr s).context_switches = s.context_switches := by
  simp only [tick_isr, Sched.setTask]
  split
  · rfl
  · split <;> rfl

theorem tick_isr_voluntary_yields (s : Sched) :
    (tick_isr s).voluntary_yields = s.voluntary_yields := by
  simp only [tick_isr, Sched.setTask]
  split
  · rfl
  · split <;> rfl

/-- State and delay counter of every slot after a live tick: slots inside
the registry go through `tickTask`, slots outside are untouched; the
runtime-credit write never affects state or delay. -/
theorem tick_isr_slot (s : Sched) (hrun : s.scheduler_running = true)
    (hn : s.task_count ≠ 0) (i : Nat) :
    ((tick_isr s).tasks i).state =
      (if i < s.task_count then (tickTask (s.tasks i)).state else (s.tasks i).state) ∧
    ((tick_isr s).tasks i).delay_ticks =
      (if i < s.task_count then (tickTask (s.tasks i)).delay_ticks
       else (s.tasks i).delay_ticks) := by
  simp only [tick_isr, Sched.setTask]
  rw [if_neg (by simp [hrun, hn])]
  dsimp only
  by_cases hcr : (s.tasks s.current_task).state = TaskState.running
  · rw [if_pos hcr]
    dsimp only
    by_cases hi : i < s.task_count
    · by_cases hic : i = s.current_task
      · subst hic
        have hcong := tickTask_congr (s.tasks s.current_task)
          { s.tasks s.current_task with
            runtime_ticks := (s.tasks s.current_task).runtime_ticks + 1 } rfl rfl
        simp [hi, hcong.1, hcong.2]
      · simp [hi, hic]
    · by_cases hic : i = s.current_task
      · subst hic
        simp [hi]
      · simp [hi, hic]
  · rw [if_neg hcr]
    by_cases hi : i < s.task_count <;> simp [hi]

/-- One more scan lemma: the scan either lands on an eligible slot or
returns the full-wrap fallback `(next + fuel) % n`. -/
theorem scanNext_eligible_or_wrap (elig : Nat → Bool) {n : Nat} :
    ∀ fuel next, 0 < fuel →
      elig (scanNext elig n next fuel) = true ∨
      scanNext elig n next fuel = (next + fuel) % n := by
  intro fuel
  induction fuel with
  | zero => intro next h; omega
  | succ f ih =>
    intro next _
    by_cases he : elig ((next + 1) % n) = true
    · left
      simp [scanNext, he]
    · have he' : elig ((next + 1) % n) = false := by
        revert he; cases elig ((next + 1) % n) <;> simp
      simp only [scanNext, he', Bool.false_eq_true, if_false]
      rcases Nat.eq_zero_or_pos f with hf | hf
      · subst hf
        right
        simp [scanNext]
      · rcases ih ((next + 1) % n) hf with h | h
        · left; exact h
        · right
          rw [h, Nat.mod_add_mod]
          congr 1
          omega

/-! ### Sample states for witnesses -/

/-- One valid task registered. -/
def sOne : Sched := (scheduler_add_task scheduler_init false).2

/-- Two valid tasks registered. -/
def sTwo : Sched := (scheduler_add_task sOne false).2

/-- The registry after `j` successful adds of valid entries. -/
def addValidN : Nat → Sched
  | 0 => scheduler_init
  | n + 1 => (scheduler_add_task (addValidN n) false).2

theorem addValidN_task_count : ∀ j, j ≤ MAX_TASKS → (addValidN j).task_count = j := by
  intro j
  induction j with
  | zero => intro _; rfl
  | succ n ih =>
    intro hle
    have hn : (addValidN n).task_count = n := ih (by omega)
    show (scheduler_add_task (addValidN n) false).2.task_count = n + 1
    unfold scheduler_add_task
    rw [if_neg (by simp only [MAX_TASKS] at hle ⊢; omega)]
    simp [Sched.setTask, hn]

/-! ### The claims -/

/-- C8: `delay(0)` is a no-op: it leaves the calling task's state and
`delay_ticks` unchanged, changes no other scheduler state, does not invoke
yield, and does not increment `voluntary_yields` — the returned state is
the input state itself. -/
theorem claim_C8_delay_zero_noop (s : Sched) : task_delay s 0 = some s := rfl

/-- C10: `get_task_stats` returns `-1` exactly when the id is out of range,
writing through neither output pointer; for a valid id it returns `0` and
writes each counter only through the corresponding non-NULL pointer. -/
theorem claim_C10_get_task_stats (s : Sched) (id : Nat) (rn tn : Bool) :
    ((scheduler_get_task_stats s id rn tn).1 = -1 ↔ s.task_count ≤ id) ∧
    (s.task_count ≤ id → scheduler_get_task_stats s id rn tn = (-1, none, none)) ∧
    (id < s.task_count →
      scheduler_get_task_stats s id rn tn =
        (0, (if rn then none else some (s.tasks id).runtime_ticks),
            (if tn then none else some (s.tasks id).times_scheduled))) := by
  unfold scheduler_get_task_stats
  by_cases h : s.task_count ≤ id
  · rw [if_pos h]
    exact ⟨by simp [h], fun _ => rfl, fun hlt => absurd hlt (by omega)⟩
  · rw [if_neg h]
    exact ⟨iff_of_false (by simp) h, fun hge => absurd hge h, fun _ => rfl⟩

theorem claim_C10_witness :
    scheduler_get_task_stats sTwo 5 false false = (-1, none, none) ∧
    scheduler_get_task_stats sTwo 0 false true =
      (0, some (sTwo.tasks 0).runtime_ticks, none) := by
  refine ⟨(claim_C10_get_task_stats sTwo 5 false false).2.1 (by decide), ?_⟩
  have h := (claim_C10_get_task_stats sTwo 0 false true).2.2 (by decide)
  simpa using h

/-- C3: from an empty registry, consecutive adds with valid entries return
ids 0, 1, 2, … up to capacity; the add at capacity fails with
CapacityExceeded and the add of a null entry fails with InvalidEntry (when
capacity remains), in both cases leaving the state — in particular the
count — unchanged; a successful add marks the new task Ready with zero
delay and increments the count. -/
theorem claim_C3_add_sequence :
    (∀ j, j ≤ MAX_TASKS → (addValidN j).task_count = j) ∧
    (∀ j, j < MAX_TASKS → (scheduler_add_task (addValidN j) false).1 = Except.ok j) ∧
    scheduler_add_task (addValidN MAX_TASKS) false
      = (Except.error AddError.capacityExceeded, addValidN MAX_TASKS) ∧
    (∀ s : Sched, (scheduler_add_task s true).2 = s) ∧
    (∀ s : Sched, s.task_count < MAX_TASKS →
      scheduler_add_task s true = (Except.error AddError.invalidEntry, s)) ∧
    (∀ s : Sched, s.task_count < MAX_TASKS →
      (scheduler_add_task s false).1 = Except.ok s.task_count ∧
      (scheduler_add_task s false).2.task_count = s.task_count + 1 ∧
      ((scheduler_add_task s false).2.tasks s.task_count).state = TaskState.ready ∧
      ((scheduler_add_task s false).2.tasks s.task_count).delay_ticks = 0) := by
  refine ⟨addValidN_task_count, ?_, ?_, ?_, ?_, ?_⟩
  · intro j hj
    have hc := addValidN_task_count j (by omega)
    unfold scheduler_add_task
    rw [if_neg (by omega)]
    simp [hc]
  · have hc := addValidN_task_count MAX_TASKS (Nat.le_refl _)
    unfold scheduler_add_task
    rw [if_pos (by omega)]
  · intro s
    unfold scheduler_add_task
    split
    · rfl
    · rfl
  · intro s hs
    unfold scheduler_add_task
    rw [if_neg (by omega)]
    rfl
  · intro s hs
    unfold scheduler_add_task
    rw [if_neg (by omega)]
    simp [Sched.setTask]

theorem claim_C3_witness :
    (addValidN 3).task_count = 3 ∧
    (scheduler_add_task (addValidN 3) false).1 = Except.ok 3 ∧
    scheduler_add_task sTwo true = (Except.error AddError.invalidEntry, sTwo) := by
  refine ⟨claim_C3_add_sequence.1 3 (by decide), ?_, ?_⟩
  · exact claim_C3_add_sequence.2.1 3 (by decide)
  · exact claim_C3_add_sequence.2.2.2.2.1 sTwo (by decide)

/-- C7: with exactly one registered task, a yield leaves `current_task`,
`context_switches` — indeed the entire state except `voluntary_yields` —
unchanged; and in general every defined yield increments
`voluntary_yields` by exactly one, switch or no switch. -/
theorem claim_C7_yield_single_and_vy (s : Sched) :
    (∀ s', scheduler_yield s = some s' →
      s'.voluntary_yields = s.voluntary_yields + 1) ∧
    (s.task_count = 1 → s.current_task = 0 →
      scheduler_yield s = some { s with voluntary_yields := s.voluntary_yields + 1 }) := by
  constructor
  · intro s' h
    unfold scheduler_yield at h
    by_cases hn : s.task_count = 0
    · rw [if_pos hn] at h
      cases h
    · rw [if_neg hn] at h
      cases h
      exact yieldEffect_voluntary_yields s
  · intro h1 h2
    have hnext : yieldNext s = 0 := by
      unfold yieldNext
      rw [h1, h2]
      simp [scanNext]
    have hcond : ¬ yieldCond s := fun hc => hc.1 (by rw [hnext, h2])
    unfold scheduler_yield
    rw [if_neg (by omega), yieldEffect_noswitch s hcond]

theorem claim_C7_witness :
    scheduler_yield sOne = some { sOne with voluntary_yields := sOne.voluntary_yields + 1 } ∧
    ({ sOne with voluntary_yields := sOne.voluntary_yields + 1 } : Sched).voluntary_yields
      = sOne.voluntary_yields + 1 := by
  have h := (claim_C7_yield_single_and_vy sOne).2 (by decide) rfl
  exact ⟨h, (claim_C7_yield_single_and_vy sOne).1 _ h⟩

/-- C9: `task_count ≥ 1` is a necessary precondition of `yield`: with
`task_count = 0` the scan's `(next + 1) % task_count` divides by zero and
the call is undefined (`none`); with `task_count ≥ 1` the call is defined,
the scan stays within the registry and terminates within `task_count`
probes — landing on an eligible slot or wrapping back to the caller. -/
theorem claim_C9_yield_precondition (s : Sched) :
    (s.task_count = 0 → scheduler_yield s = none) ∧
    (0 < s.task_count →
      (∃ s', scheduler_yield s = some s') ∧
      yieldNext s < s.task_count ∧
      ((s.tasks (yieldNext s)).eligible = true ∨
        yieldNext s = s.current_task % s.task_count)) := by
  constructor
  · intro h
    unfold scheduler_yield
    rw [if_pos h]
  · intro h
    refine ⟨⟨yieldEffect s, ?_⟩, yieldNext_lt s h, ?_⟩
    · unfold scheduler_yield
      rw [if_neg (by omega)]
    · rcases scanNext_eligible_or_wrap (fun i => (s.tasks i).eligible)
        s.task_count s.current_task h with hc | hc
      · left; exact hc
      · right
        unfold yieldNext
        rw [hc, Nat.add_mod_right]

theorem claim_C9_witness :
    scheduler_yield scheduler_init = none ∧
    (∃ s', scheduler_yield sTwo = some s') := by
  refine ⟨(claim_C9_yield_precondition scheduler_init).1 rfl, ?_⟩
  exact ((claim_C9_yield_precondition sTwo).2 (by decide)).1

/-! ### Suspension and termination helpers -/

theorem eligible_false_of_blocked {t : Task} (h : t.state = TaskState.blocked) :
    t.eligible = false := by
  simp [Task.eligible, h]

theorem eligible_false_of_suspended {t : Task} (h : t.state = TaskState.suspended) :
    t.eligible = false := by
  simp [Task.eligible, h]

/-- A Suspended slot stays Suspended through `tickTask`; the counter is
still decremented (saturating at zero). -/
theorem tickTask_suspended (t : Task) (hsus : t.state = TaskState.suspended) :
    (tickTask t).state = TaskState.suspended ∧
    (tickTask t).delay_ticks = t.delay_ticks - 1 := by
  obtain ⟨ts, ti, td, tr, tc⟩ := t
  dsimp only at hsus
  subst hsus
  constructor <;>
    (dsimp only [tickTask]; split_ifs <;> first | rfl | simp_all)

/-- A Blocked slot with zero delay is a fixed point of `tickTask`. -/
theorem tickTask_blocked_zero (t : Task) (_h : t.state = TaskState.blocked)
    (hd : t.delay_ticks = 0) :
    tickTask t = t := by
  simp [tickTask, hd]

/-- A Blocked slot with positive delay is decremented; it wakes exactly
when the counter reaches zero. -/
theorem tickTask_blocked_pos (t : Task) (h : t.state = TaskState.blocked)
    (hd : 0 < t.delay_ticks) :
    (tickTask t).delay_ticks = t.delay_ticks - 1 ∧
    (tickTask t).state =
      (if t.delay_ticks - 1 = 0 then TaskState.ready else TaskState.blocked) := by
  obtain ⟨ts, ti, td, tr, tc⟩ := t
  dsimp only at h hd
  subst h
  constructor <;>
    (dsimp only [tickTask]; split_ifs <;> first | rfl | simp_all)

/-- `tickTask` never makes a task Running. -/
theorem tickTask_not_running (t : Task) (h : (tickTask t).state = TaskState.running) :
    t.state = TaskState.running := by
  revert h
  dsimp only [tickTask]
  split_ifs with h1 h2 <;> intro h <;> first | exact h | (cases h)

/-- C5: a Suspended task keeps its state through the tick handler even as
its positive counter is decremented to zero, is never selected by a yield
(given a valid current slot), and only an explicit `resume` returns it to
Ready; `resume` of an out-of-range id is a no-op. -/
theorem claim_C5_suspend_dominance (s : Sched) (i : Nat)
    (hs : (s.tasks i).state = TaskState.suspended) :
    (((tick_isr s).tasks i).state = TaskState.suspended ∧
      (s.scheduler_running = true → s.task_count ≠ 0 → i < s.task_count →
        ((tick_isr s).tasks i).delay_ticks = (s.tasks i).delay_ticks - 1)) ∧
    (s.current_task < s.task_count →
      ∀ s', scheduler_yield s = some s' →
        (s'.tasks i).state = TaskState.suspended ∧
        (s'.current_task = i → s.current_task = i)) ∧
    (i < s.task_count →
      ((scheduler_resume_task s i).tasks i).state = TaskState.ready) ∧
    (s.task_count ≤ i → scheduler_resume_task s i = s) := by
  refine ⟨⟨?_, ?_⟩, ?_, ?_, ?_⟩
  · by_cases hrun : s.scheduler_running = true
    · by_cases hn : s.task_count = 0
      · rw [tick_isr_noop s (Or.inr hn)]
        exact hs
      · rw [(tick_isr_slot s hrun hn i).1]
        by_cases hi : i < s.task_count
        · rw [if_pos hi, (tickTask_suspended _ hs).1]
        · rw [if_neg hi]
          exact hs
    · rw [tick_isr_noop s (Or.inl (by revert hrun; cases s.scheduler_running <;> simp))]
      exact hs
  · intro hrun hn hi
    rw [(tick_isr_slot s hrun hn i).2, if_pos hi, (tickTask_suspended _ hs).2]
  · intro hcur s' hy
    have hn0 : s.task_count ≠ 0 := by omega
    unfold scheduler_yield at hy
    rw [if_neg hn0] at hy
    cases hy
    by_cases hc : yieldCond s
    · have helig : (s.tasks (yieldNext s)).eligible = true := by
        rcases yieldNext_eligible_or_current s (by omega) hcur with h | h
        · exact h
        · exact absurd h hc.1
      have hne : yieldNext s ≠ i := by
        intro he
        rw [he, eligible_false_of_suspended hs] at helig
        cases helig
      constructor
      · rw [yieldEffect_tasks_switch s hc i,
          if_neg (fun he => hne he.symm),
          if_neg (fun hand => by rw [← hand.1, hs] at hand; cases hand.2)]
        exact hs
      · intro hcur'
        rw [yieldEffect_current_switch s hc] at hcur'
        exact absurd hcur' hne
    · rw [yieldEffect_noswitch s hc]
      exact ⟨hs, fun h => h⟩
  · intro hi
    unfold scheduler_resume_task
    rw [if_pos ⟨hi, hs⟩]
    simp [Sched.setTask]
  · intro hi
    unfold scheduler_resume_task
    rw [if_neg (fun hand => absurd hand.1 (by omega))]

/-- Two tasks with the second suspended. -/
def sSus : Sched := scheduler_suspend_task sTwo 1

theorem claim_C5_witness :
    ((tick_isr sSus).tasks 1).state = TaskState.suspended ∧
    ((scheduler_resume_task sSus 1).tasks 1).state = TaskState.ready := by
  have h := claim_C5_suspend_dominance sSus 1 (by decide)
  exact ⟨h.1.1, h.2.2.1 (by decide)⟩

/-! ### Operation sequences (for terminal-sink claims) -/

/-- The operations that can still run after a task has exited: further
timer ticks and yields from the remaining tasks. -/
inductive SchedOp where
  | tick
  | yld

/-- Run one operation; an undefined yield (`task_count = 0`) leaves the
state in place. -/
def applyOp (s : Sched) : SchedOp → Sched
  | SchedOp.tick => tick_isr s
  | SchedOp.yld => (scheduler_yield s).getD s

def applyOps (s : Sched) : List SchedOp → Sched
  | [] => s
  | op :: ops => applyOps (applyOp s op) ops

/-- A Blocked slot with a zero counter stays Blocked (with a zero counter)
across any tick, and any yield with a valid current slot; current stays
valid. -/
theorem blocked_zero_step (s : Sched) (i : Nat) (op : SchedOp)
    (hb : (s.tasks i).state = TaskState.blocked)
    (hd : (s.tasks i).delay_ticks = 0)
    (hcur : s.current_task < s.task_count) :
    ((applyOp s op).tasks i).state = TaskState.blocked ∧
    ((applyOp s op).tasks i).delay_ticks = 0 ∧
    (applyOp s op).current_task < (applyOp s op).task_count := by
  cases op with
  | tick =>
    simp only [applyOp]
    rw [tick_isr_current_task, tick_isr_task_count]
    by_cases hrun : s.scheduler_running = true
    · have hn : s.task_count ≠ 0 := by omega
      rw [(tick_isr_slot s hrun hn i).1, (tick_isr_slot s hrun hn i).2]
      by_cases hi : i < s.task_count <;>
        simp [hi, tickTask_blocked_zero _ hb hd, hb, hd, hcur]
    · rw [tick_isr_noop s (Or.inl (by revert hrun; cases s.scheduler_running <;> simp))]
      exact ⟨hb, hd, hcur⟩
  | yld =>
    have hn0 : s.task_count ≠ 0 := by omega
    simp only [applyOp]
    unfold scheduler_yield
    rw [if_neg hn0]
    simp only [Option.getD_some]
    rw [yieldEffect_task_count]
    by_cases hc : yieldCond s
    · have helig : (s.tasks (yieldNext s)).eligible = true := by
        rcases yieldNext_eligible_or_current s (by omega) hcur with h | h
        · exact h
        · exact absurd h hc.1
      have hne : yieldNext s ≠ i := by
        intro he
        rw [he, eligible_false_of_blocked hb] at helig
        cases helig
      rw [yieldEffect_tasks_switch s hc i,
        if_neg (fun he => hne he.symm),
        if_neg (fun hand => by rw [← hand.1, hb] at hand; cases hand.2),
        yieldEffect_current_switch s hc]
      exact ⟨hb, hd, yieldNext_lt s (by omega)⟩
    · rw [yieldEffect_noswitch s hc]
      exact ⟨hb, hd, hcur⟩

theorem blocked_zero_ops (i : Nat) : ∀ (ops : List SchedOp) (s : Sched),
    (s.tasks i).state = TaskState.blocked →
    (s.tasks i).delay_ticks = 0 →
    s.current_task < s.task_count →
    ((applyOps s ops).tasks i).state = TaskState.blocked ∧
    ((applyOps s ops).tasks i).delay_ticks = 0 := by
  intro ops
  induction ops with
  | nil => intro s hb hd _; exact ⟨hb, hd⟩
  | cons op rest ih =>
    intro s hb hd hcur
    have hstep := blocked_zero_step s i op hb hd hcur
    exact ih (applyOp s op) hstep.1 hstep.2.1 hstep.2.2

/-- C6: when a task's entry function returns, the exit handler marks it
Blocked; with its delay counter at zero this is a terminal sink — no
sequence of further tick-handler invocations and yields ever changes it
back (never Ready, never Running, hence never selected again). -/
theorem claim_C6_exit_terminal (s : Sched)
    (hcur : s.current_task < s.task_count)
    (hdelay : (s.tasks s.current_task).delay_ticks = 0) :
    ((task_exit_mark s).tasks s.current_task).state = TaskState.blocked ∧
    ∀ ops : List SchedOp,
      ((applyOps (task_exit_mark s) ops).tasks s.current_task).state
          = TaskState.blocked ∧
      ((applyOps (task_exit_mark s) ops).tasks s.current_task).delay_ticks = 0 := by
  have hb : ((task_exit_mark s).tasks s.current_task).state = TaskState.blocked := by
    simp [task_exit_mark, Sched.setTask]
  have hd : ((task_exit_mark s).tasks s.current_task).delay_ticks = 0 := by
    simp [task_exit_mark, Sched.setTask, hdelay]
  refine ⟨hb, fun ops => ?_⟩
  exact blocked_zero_ops s.current_task ops (task_exit_mark s) hb hd hcur

/-- `sTwo` after a successful start: task 0 Running, task 1 Ready. -/
def sTwoStarted : Sched := (scheduler_start sTwo).getD scheduler_init

theorem claim_C6_witness :
    ((applyOps (task_exit_mark sTwoStarted) [SchedOp.tick, SchedOp.yld]).tasks
        sTwoStarted.current_task).state = TaskState.blocked := by
  exact ((claim_C6_exit_terminal sTwoStarted (by decide) (by decide)).2
    [SchedOp.tick, SchedOp.yld]).1

/-! ### Iterated ticks (for the delay claim) -/

def tickN (s : Sched) : Nat → Sched
  | 0 => s
  | m + 1 => tickN (tick_isr s) m

theorem tickN_succ (m : Nat) : ∀ s : Sched, tickN s (m + 1) = tick_isr (tickN s m) := by
  induction m with
  | zero => intro s; rfl
  | succ k ih => intro s; exact ih (tick_isr s)

/-- Through `m` ticks, a Blocked slot whose counter exceeds `m` stays
Blocked while its counter is decremented once per tick. -/
theorem tickN_blocked_countdown (i : Nat) : ∀ (m : Nat) (s : Sched),
    s.scheduler_running = true → i < s.task_count →
    (s.tasks i).state = TaskState.blocked →
    m < (s.tasks i).delay_ticks →
    ((tickN s m).tasks i).state = TaskState.blocked ∧
    ((tickN s m).tasks i).delay_ticks = (s.tasks i).delay_ticks - m ∧
    (tickN s m).scheduler_running = true ∧
    (tickN s m).task_count = s.task_count := by
  intro m
  induction m with
  | zero => intro s h1 h2 h3 _; exact ⟨h3, rfl, h1, rfl⟩
  | succ k ih =>
    intro s hrun hi hb hdm
    simp only [tickN]
    have hn : s.task_count ≠ 0 := by omega
    have hdpos : 0 < (s.tasks i).delay_ticks := by omega
    have hslot := tick_isr_slot s hrun hn i
    have htb := tickTask_blocked_pos (s.tasks i) hb hdpos
    have hb' : ((tick_isr s).tasks i).state = TaskState.blocked := by
      rw [hslot.1, if_pos hi, htb.2, if_neg (by omega)]
    have hd' : ((tick_isr s).tasks i).delay_ticks = (s.tasks i).delay_ticks - 1 := by
      rw [hslot.2, if_pos hi, htb.1]
    have hrun' : (tick_isr s).scheduler_running = true := by
      rw [tick_isr_scheduler_running]; exact hrun
    have hi' : i < (tick_isr s).task_count := by
      rw [tick_isr_task_count]; exact hi
    have := ih (tick_isr s) hrun' hi' hb' (by omega)
    refine ⟨this.1, ?_, this.2.2.1, ?_⟩
    · rw [this.2.1, hd']
      omega
    · rw [this.2.2.2, tick_isr_task_count]

/-- C4: after `delay(n)` with `n > 0` the calling task is Blocked with its
counter at `n`; it stays Blocked through the first `n-1` subsequent tick
invocations (counter `n - m` after `m` of them) and the `n`-th tick drives
the counter to zero and makes it Ready — eligible for selection — not
before and not later. -/
theorem claim_C4_delay_counts_ticks (s : Sched) (n : Nat)
    (hn : 0 < n) (hmax : n ≤ 65535)
    (hrun : s.scheduler_running = true)
    (hcur : s.current_task < s.task_count) :
    ∃ s', task_delay s n = some s' ∧
      s'.scheduler_running = true ∧
      (s'.tasks s.current_task).state = TaskState.blocked ∧
      (s'.tasks s.current_task).delay_ticks = n ∧
      (∀ m, m < n →
        ((tickN s' m).tasks s.current_task).state = TaskState.blocked ∧
        ((tickN s' m).tasks s.current_task).eligible = false ∧
        ((tickN s' m).tasks s.current_task).delay_ticks = n - m) ∧
      ((tickN s' n).tasks s.current_task).state = TaskState.ready ∧
      ((tickN s' n).tasks s.current_task).delay_ticks = 0 ∧
      ((tickN s' n).tasks s.current_task).eligible = true := by
  have hn0 : s.task_count ≠ 0 := by omega
  set i := s.current_task with hidef
  set sB := s.setTask i { s.tasks i with delay_ticks := n, state := TaskState.blocked }
    with hsB
  have hBtasks : sB.tasks i
      = { s.tasks i with delay_ticks := n, state := TaskState.blocked } := by
    rw [hsB]; simp [Sched.setTask]
  have hBb : (sB.tasks i).state = TaskState.blocked := by rw [hBtasks]
  have hBd : (sB.tasks i).delay_ticks = n := by rw [hBtasks]
  have hBcur : sB.current_task = i := rfl
  have hBcount : sB.task_count = s.task_count := rfl
  have hBrun : sB.scheduler_running = s.scheduler_running := rfl
  have hdel : task_delay s n = scheduler_yield sB := by
    unfold task_delay
    rw [if_neg (by omega)]
  have hyld : scheduler_yield sB = some (yieldEffect sB) := by
    unfold scheduler_yield
    rw [if_neg (by rw [hBcount]; exact hn0)]
  -- slot i is untouched by the yield inside task_delay
  have hslotB : (yieldEffect sB).tasks i = sB.tasks i := by
    by_cases hc : yieldCond sB
    · have helig : (sB.tasks (yieldNext sB)).eligible = true := by
        rcases yieldNext_eligible_or_current sB (by omega)
            (by rw [hBcur, hBcount]; exact hcur) with h | h
        · exact h
        · exact absurd h hc.1
      have hne : yieldNext sB ≠ i := by
        intro he
        rw [he, eligible_false_of_blocked hBb] at helig
        cases helig
      rw [yieldEffect_tasks_switch sB hc i,
        if_neg (fun he => hne he.symm),
        if_neg (fun hand => by
          have h2 := hand.2
          rw [hBcur, hBb] at h2
          cases h2)]
    · rw [yieldEffect_noswitch sB hc]
  have hYrun : (yieldEffect sB).scheduler_running = true := by
    rw [yieldEffect_scheduler_running, hBrun]; exact hrun
  have hYcount : (yieldEffect sB).task_count = s.task_count := by
    rw [yieldEffect_task_count, hBcount]
  have hYb : ((yieldEffect sB).tasks i).state = TaskState.blocked := by
    rw [hslotB]; exact hBb
  have hYd : ((yieldEffect sB).tasks i).delay_ticks = n := by
    rw [hslotB]; exact hBd
  have hYi : i < (yieldEffect sB).task_count := by rw [hYcount]; exact hcur
  have hcount : ∀ m, m < n →
      ((tickN (yieldEffect sB) m).tasks i).state = TaskState.blocked ∧
      ((tickN (yieldEffect sB) m).tasks i).delay_ticks = n - m ∧
      (tickN (yieldEffect sB) m).scheduler_running = true ∧
      (tickN (yieldEffect sB) m).task_count = (yieldEffect sB).task_count := by
    intro m hm
    have := tickN_blocked_countdown i m (yieldEffect sB) hYrun hYi hYb (by omega)
    exact ⟨this.1, by rw [this.2.1, hYd], this.2.2.1, this.2.2.2⟩
  refine ⟨yieldEffect sB, by rw [hdel, hyld], hYrun, hYb, hYd, ?_, ?_⟩
  · intro m hm
    have h := hcount m hm
    exact ⟨h.1, eligible_false_of_blocked h.1, h.2.1⟩
  · -- the n-th tick wakes the task
    have hlast := hcount (n - 1) (by omega)
    set t := tickN (yieldEffect sB) (n - 1) with ht
    have htd : (t.tasks i).delay_ticks = 1 := by rw [hlast.2.1]; omega
    have hti : i < t.task_count := by rw [hlast.2.2.2]; exact hYi
    have htn0 : t.task_count ≠ 0 := by omega
    have hstep := tick_isr_slot t hlast.2.2.1 htn0 i
    have htb := tickTask_blocked_pos (t.tasks i) hlast.1 (by omega)
    have hsucc : tickN (yieldEffect sB) n = tick_isr t := by
      rw [ht, ← tickN_succ]
      congr 1
      omega
    have hready : ((tick_isr t).tasks i).state = TaskState.ready := by
      rw [hstep.1, if_pos hti, htb.2, if_pos (by omega)]
    have hzero : ((tick_isr t).tasks i).delay_ticks = 0 := by
      rw [hstep.2, if_pos hti, htb.1]
      omega
    rw [hsucc]
    exact ⟨hready, hzero, eligible_of_state_ready hready⟩

theorem claim_C4_witness :
    ∃ s', task_delay sTwoStarted 2 = some s' ∧
      s'.scheduler_running = true ∧
      (s'.tasks sTwoStarted.current_task).state = TaskState.blocked ∧
      (s'.tasks sTwoStarted.current_task).delay_ticks = 2 ∧
      (∀ m, m < 2 →
        ((tickN s' m).tasks sTwoStarted.current_task).state = TaskState.blocked ∧
        ((tickN s' m).tasks sTwoStarted.current_task).eligible = false ∧
        ((tickN s' m).tasks sTwoStarted.current_task).delay_ticks = 2 - m) ∧
      ((tickN s' 2).tasks sTwoStarted.current_task).state = TaskState.ready ∧
      ((tickN s' 2).tasks sTwoStarted.current_task).delay_ticks = 0 ∧
      ((tickN s' 2).tasks sTwoStarted.current_task).eligible = true :=
  claim_C4_delay_counts_ticks sTwoStarted 2 (by decide) (by decide) (by decide) (by decide)

/-! ### Reachability and the running-task invariant -/

/-- The auxiliary inductive invariant behind "at most one Running task":
any Running slot is the current one, in a started scheduler with a valid
current index. -/
def RunInv (s : Sched) : Prop :=
  (s.scheduler_running = true → s.current_task < s.task_count) ∧
  ∀ i, i < s.task_count → (s.tasks i).state = TaskState.running →
    s.scheduler_running = true ∧ i = s.current_task

/-- States reachable through the public API under its usage contract:
setup calls from main (`init`, `add`, `suspend`, `resume`), `start` called
once (it never returns), ticks at any time (they guard on the running
flag), and `yield`/`delay` from task bodies, i.e. only once started. -/
inductive Reachable : Sched → Prop where
  | init : Reachable scheduler_init
  | add (s : Sched) (b : Bool) : Reachable s → Reachable (scheduler_add_task s b).2
  | suspend (s : Sched) (id : Nat) : Reachable s → Reachable (scheduler_suspend_task s id)
  | resume (s : Sched) (id : Nat) : Reachable s → Reachable (scheduler_resume_task s id)
  | tick (s : Sched) : Reachable s → Reachable (tick_isr s)
  | start (s s' : Sched) : Reachable s → s.scheduler_running = false →
      scheduler_start s = some s' → Reachable s'
  | yld (s s' : Sched) : Reachable s → s.scheduler_running = true →
      scheduler_yield s = some s' → Reachable s'
  | delay (s s' : Sched) (n : Nat) : Reachable s → s.scheduler_running = true →
      task_delay s n = some s' → Reachable s'

theorem runInv_init : RunInv scheduler_init := by
  constructor
  · intro h
    cases h
  · intro i hi _
    exact absurd hi (Nat.not_lt_zero i)

theorem runInv_add (s : Sched) (b : Bool) (h : RunInv s) :
    RunInv (scheduler_add_task s b).2 := by
  unfold scheduler_add_task
  split
  · exact h
  · split
    · exact h
    · constructor
      · intro hrun
        have := h.1 hrun
        simp only [Sched.setTask]
        omega
      · intro i hi hr
        simp only [Sched.setTask] at hi hr ⊢
        by_cases hieq : i = s.task_count
        · rw [if_pos hieq] at hr
          cases hr
        · rw [if_neg hieq] at hr
          exact h.2 i (by omega) hr

theorem runInv_suspend (s : Sched) (id : Nat) (h : RunInv s) :
    RunInv (scheduler_suspend_task s id) := by
  unfold scheduler_suspend_task
  split
  · constructor
    · exact h.1
    · intro i hi hr
      simp only [Sched.setTask] at hi hr ⊢
      by_cases hieq : i = id
      · rw [if_pos hieq] at hr
        cases hr
      · rw [if_neg hieq] at hr
        exact h.2 i hi hr
  · exact h

theorem runInv_resume (s : Sched) (id : Nat) (h : RunInv s) :
    RunInv (scheduler_resume_task s id) := by
  unfold scheduler_resume_task
  split
  · constructor
    · exact h.1
    · intro i hi hr
      simp only [Sched.setTask] at hi hr ⊢
      by_cases hieq : i = id
      · rw [if_pos hieq] at hr
        cases hr
      · rw [if_neg hieq] at hr
        exact h.2 i hi hr
  · exact h

theorem runInv_tick (s : Sched) (h : RunInv s) : RunInv (tick_isr s) := by
  constructor
  · rw [tick_isr_scheduler_running, tick_isr_current_task, tick_isr_task_count]
    exact h.1
  · intro i hi hr
    rw [tick_isr_task_count] at hi
    rw [tick_isr_scheduler_running, tick_isr_current_task]
    by_cases hrun : s.scheduler_running = true
    · by_cases hn : s.task_count = 0
      · rw [tick_isr_noop s (Or.inr hn)] at hr
        exact h.2 i hi hr
      · rw [(tick_isr_slot s hrun hn i).1, if_pos hi] at hr
        exact h.2 i hi (tickTask_not_running _ hr)
    · rw [tick_isr_noop s (Or.inl (by revert hrun; cases s.scheduler_running <;> simp))] at hr
      exact h.2 i hi hr

theorem runInv_start (s s' : Sched) (h : RunInv s)
    (hflag : s.scheduler_running = false)
    (hstart : scheduler_start s = some s') :
    RunInv s' ∧ s'.task_count = s.task_count ∧ s'.current_task = 0 ∧
    (s'.tasks 0).state = TaskState.running ∧
    (∀ i, i ≠ 0 → s'.tasks i = s.tasks i) := by
  unfold scheduler_start at hstart
  by_cases hn : s.task_count = 0
  · rw [if_pos hn] at hstart
    cases hstart
  · rw [if_neg hn] at hstart
    cases hstart
    refine ⟨⟨fun _ => by simp only [Sched.setTask]; omega, ?_⟩, rfl, rfl, ?_, ?_⟩
    · intro i hi hr
      simp only [Sched.setTask] at hi hr ⊢
      refine ⟨by trivial, ?_⟩
      by_cases hieq : i = 0
      · exact hieq
      · rw [if_neg hieq] at hr
        have := (h.2 i (by omega) hr).1
        rw [hflag] at this
        cases this
    · simp [Sched.setTask]
    · intro i hi
      simp [Sched.setTask, hi]

theorem runInv_yieldEffect (s : Sched) (h : RunInv s)
    (hrun : s.scheduler_running = true) : RunInv (yieldEffect s) := by
  have hcur : s.current_task < s.task_count := h.1 hrun
  have hn : 0 < s.task_count := by omega
  by_cases hc : yieldCond s
  · constructor
    · intro _
      rw [yieldEffect_current_switch s hc, yieldEffect_task_count]
      exact yieldNext_lt s hn
    · intro i hi hr
      rw [yieldEffect_task_count] at hi
      rw [yieldEffect_scheduler_running, yieldEffect_current_switch s hc]
      refine ⟨hrun, ?_⟩
      rw [yieldEffect_tasks_switch s hc i] at hr
      by_cases hieq : i = yieldNext s
      · exact hieq
      · rw [if_neg hieq] at hr
        by_cases hi2 : i = s.current_task ∧ (s.tasks s.current_task).state = TaskState.running
        · rw [if_pos hi2] at hr
          cases hr
        · rw [if_neg hi2] at hr
          have := (h.2 i hi hr).2
          exact absurd ⟨this, this ▸ hr⟩ hi2
  · rw [yieldEffect_noswitch s hc]
    exact h

theorem runInv_yield (s s' : Sched) (h : RunInv s)
    (hrun : s.scheduler_running = true)
    (hy : scheduler_yield s = some s') : RunInv s' := by
  unfold scheduler_yield at hy
  by_cases hn : s.task_count = 0
  · rw [if_pos hn] at hy
    cases hy
  · rw [if_neg hn] at hy
    cases hy
    exact runInv_yieldEffect s h hrun

theorem runInv_delay (s s' : Sched) (n : Nat) (h : RunInv s)
    (hrun : s.scheduler_running = true)
    (hd : task_delay s n = some s') : RunInv s' := by
  unfold task_delay at hd
  by_cases hzero : n = 0
  · rw [if_pos hzero] at hd
    cases hd
    exact h
  · rw [if_neg hzero] at hd
    have hBinv : RunInv (s.setTask s.current_task
        { s.tasks s.current_task with delay_ticks := n, state := TaskState.blocked }) := by
      constructor
      · simp only [Sched.setTask]
        exact h.1
      · intro i hi hr
        simp only [Sched.setTask] at hi hr ⊢
        by_cases hieq : i = s.current_task
        · rw [if_pos hieq] at hr
          cases hr
        · rw [if_neg hieq] at hr
          exact ⟨(h.2 i hi hr).1, (h.2 i hi hr).2⟩
    exact runInv_yield _ s' hBinv (by simp only [Sched.setTask]; exact hrun) hd

theorem reachable_runInv (s : Sched) (h : Reachable s) : RunInv s := by
  induction h with
  | init => exact runInv_init
  | add s b _ ih => exact runInv_add s b ih
  | suspend s id _ ih => exact runInv_suspend s id ih
  | resume s id _ ih => exact runInv_resume s id ih
  | tick s _ ih => exact runInv_tick s ih
  | start s s' _ hflag hstart ih => exact (runInv_start s s' ih hflag hstart).1
  | yld s s' _ hrun hy ih => exact runInv_yield s s' ih hrun hy
  | delay s s' n _ hrun hd ih => exact runInv_delay s s' n ih hrun hd

/-- C1: in every reachable scheduler state at most one task is Running,
and immediately after a successful `start` (necessarily from a
not-yet-started state, since `start` never returns) exactly one task —
task 0 — is Running; all the public operations preserve this, as
reachability is closed under them. -/
theorem claim_C1_at_most_one_running (s : Sched) (hs : Reachable s) :
    (∀ i j, i < s.task_count → j < s.task_count →
      (s.tasks i).state = TaskState.running →
      (s.tasks j).state = TaskState.running → i = j) ∧
    (∀ s', s.scheduler_running = false → scheduler_start s = some s' →
      (s'.tasks 0).state = TaskState.running ∧
      ∀ i, i < s'.task_count → (s'.tasks i).state = TaskState.running → i = 0) := by
  have hinv := reachable_runInv s hs
  constructor
  · intro i j hi hj hri hrj
    rw [(hinv.2 i hi hri).2, (hinv.2 j hj hrj).2]
  · intro s' hflag hstart
    obtain ⟨hinv', hcount, hcur, hrun0, hother⟩ := runInv_start s s' hinv hflag hstart
    refine ⟨hrun0, fun i hi hri => ?_⟩
    rw [← hcur]
    exact (hinv'.2 i hi hri).2

theorem claim_C1_witness :
    (∀ i j, i < sTwoStarted.task_count → j < sTwoStarted.task_count →
      (sTwoStarted.tasks i).state = TaskState.running →
      (sTwoStarted.tasks j).state = TaskState.running → i = j) ∧
    (sTwoStarted.tasks 0).state = TaskState.running := by
  have hreach2 : Reachable sTwo :=
    Reachable.add sOne false (Reachable.add scheduler_init false Reachable.init)
  have hstarted : Reachable sTwoStarted :=
    Reachable.start sTwo sTwoStarted hreach2 rfl rfl
  refine ⟨(claim_C1_at_most_one_running sTwoStarted hstarted).1, ?_⟩
  exact ((claim_C1_at_most_one_running sTwo hreach2).2 sTwoStarted rfl rfl).1


/-! ### Round-robin fairness (C2) -/

/-- Yield as a total function (identity in the undefined zero-task case). -/
def yieldD (s : Sched) : Sched := (scheduler_yield s).getD s

/-- The sequence of `current_task` values observed after each of `m`
consecutive yields. -/
def visitSeq (s : Sched) : Nat → List Nat
  | 0 => []
  | m + 1 => (yieldD s).current_task :: visitSeq (yieldD s) m

/-- The eligible slots in round-robin order starting after the caller:
ascending ids from `current_task + 1`, wrapping once. -/
def cycleOrder (s : Sched) : List Nat :=
  ((List.range s.task_count).map
      fun o => (s.current_task + 1 + o) % s.task_count).filter
    fun i => (s.tasks i).eligible

theorem filter_map_comm (f : Nat → Nat) (p : Nat → Bool) :
    ∀ l : List Nat, (l.map f).filter p = (l.filter (fun x => p (f x))).map f := by
  intro l
  induction l with
  | nil => rfl
  | cons x xs ih =>
    by_cases hx : p (f x) = true <;> simp [List.filter_cons, hx, ih]

/-- When the scan selects an eligible slot, a yield moves `current_task`
there (possibly as a no-op when it is the caller itself), keeps the
count, and preserves every slot's eligibility. -/
theorem yieldD_step (s : Sched) (hn : 0 < s.task_count)
    (helig : (s.tasks (yieldNext s)).eligible = true) :
    (yieldD s).current_task = yieldNext s ∧
    (yieldD s).task_count = s.task_count ∧
    ∀ i, ((yieldD s).tasks i).eligible = (s.tasks i).eligible := by
  have hn0 : s.task_count ≠ 0 := by omega
  have hyd : yieldD s = yieldEffect s := by
    unfold yieldD scheduler_yield
    rw [if_neg hn0]
    rfl
  rw [hyd]
  by_cases hc : yieldCond s
  · refine ⟨yieldEffect_current_switch s hc, yieldEffect_task_count s, ?_⟩
    intro i
    rw [yieldEffect_tasks_switch s hc i]
    by_cases hi : i = yieldNext s
    · rw [if_pos hi, hi, helig]
      rfl
    · rw [if_neg hi]
      by_cases hic : i = s.current_task ∧ (s.tasks s.current_task).state = TaskState.running
      · rw [if_pos hic, hic.1, eligible_of_state_running hic.2]
        rfl
      · rw [if_neg hic]
  · have hnoc : yieldNext s = s.current_task := by
      by_contra hne
      exact hc ⟨hne, state_ne_blocked_of_eligible helig⟩
    rw [yieldEffect_noswitch s hc]
    refine ⟨?_, rfl, fun i => rfl⟩
    show s.current_task = yieldNext s
    rw [hnoc]

/-- The inductive core of round-robin fairness: if the eligible offsets
(from the original caller `c0`) past the last visited offset `a` are
exactly the sorted list `rest`, the next `rest.length` yields visit them
in order. -/
theorem visit_chain (n : Nat) (e : Nat → Bool) (c0 : Nat) (hn : 0 < n) :
    ∀ (rest : List Nat) (a : Nat) (s : Sched),
      s.task_count = n →
      (∀ i, (s.tasks i).eligible = e i) →
      s.current_task = (c0 + 1 + a) % n →
      a < n →
      List.Pairwise (· < ·) rest →
      (∀ j, j ∈ rest → a < j ∧ j < n) →
      (∀ j, a < j → j < n → (e ((c0 + 1 + j) % n) = true ↔ j ∈ rest)) →
      visitSeq s rest.length = rest.map (fun j => (c0 + 1 + j) % n) := by
  intro rest
  induction rest with
  | nil => intro a s _ _ _ _ _ _ _; rfl
  | cons b rest' ih =>
    intro a s hcount helig hcur ha hsort hrange hchar
    have hsort' := List.pairwise_cons.mp hsort
    have hb := hrange b (List.mem_cons_self b rest')
    have heb : e ((c0 + 1 + b) % n) = true :=
      (hchar b hb.1 hb.2).mpr (List.mem_cons_self b rest')
    have hshift : ∀ m : Nat,
        ((c0 + 1 + a) % n + 1 + m) % n = (c0 + 1 + (a + 1 + m)) % n := by
      intro m
      rw [Nat.add_assoc, Nat.mod_add_mod]
      congr 1
      omega
    have hyes : e (((c0 + 1 + a) % n + 1 + (b - (a + 1))) % n) = true := by
      rw [hshift (b - (a + 1))]
      have hab : a + 1 + (b - (a + 1)) = b := by omega
      rw [hab]
      exact heb
    have hno : ∀ j', j' < b - (a + 1) →
        e (((c0 + 1 + a) % n + 1 + j') % n) = false := by
      intro j' hj'
      rw [hshift j']
      by_contra hcon
      have htrue : e ((c0 + 1 + (a + 1 + j')) % n) = true := by
        revert hcon
        cases e ((c0 + 1 + (a + 1 + j')) % n) <;> simp
      have hmem := (hchar (a + 1 + j') (by omega) (by omega)).mp htrue
      rcases List.mem_cons.mp hmem with hmb | hmr
      · omega
      · have := hsort'.1 _ hmr
        omega
    have hef : (fun i => (s.tasks i).eligible) = e := funext helig
    have hnext : yieldNext s = (c0 + 1 + b) % n := by
      unfold yieldNext
      rw [hcount, hef, hcur,
        scanNext_spec e n (b - (a + 1)) ((c0 + 1 + a) % n) (by omega) hyes hno,
        hshift (b - (a + 1))]
      congr 1
      omega
    have helig_next : (s.tasks (yieldNext s)).eligible = true := by
      rw [helig, hnext]
      exact heb
    have hstep := yieldD_step s (by omega) helig_next
    have htail := ih b (yieldD s) (by rw [hstep.2.1, hcount])
      (fun i => by rw [hstep.2.2 i, helig i])
      (by rw [hstep.1, hnext]) hb.2 hsort'.2
      (fun j hj => ⟨hsort'.1 j hj, (hrange j (List.mem_cons_of_mem b hj)).2⟩)
      (fun j hbj hjn => by
        rw [hchar j (by omega) hjn]
        constructor
        · intro hm
          rcases List.mem_cons.mp hm with hmb | hmr
          · omega
          · exact hmr
        · exact fun hm => List.mem_cons_of_mem b hm)
    simp only [List.length_cons, List.map_cons, visitSeq]
    rw [hstep.1, hnext, htail]

/-- C2: with `k` eligible (Ready or Running) tasks, `k` consecutive yields
from any caller visit exactly the eligible slots, each exactly once, in
ascending id order starting after the caller (`cycleOrder`); `cycleOrder`
has no duplicates and contains precisely the eligible slots. -/
theorem claim_C2_round_robin (s : Sched) (hn : 0 < s.task_count) :
    visitSeq s (cycleOrder s).length = cycleOrder s ∧
    (cycleOrder s).Nodup ∧
    ∀ i, i ∈ cycleOrder s ↔
      (i < s.task_count ∧ (s.tasks i).eligible = true) := by
  have hco : cycleOrder s
      = ((List.range s.task_count).filter
          (fun j => (s.tasks ((s.current_task + 1 + j) % s.task_count)).eligible)).map
        (fun j => (s.current_task + 1 + j) % s.task_count) := by
    unfold cycleOrder
    rw [filter_map_comm]
  have hJmem : ∀ j, j ∈ (List.range s.task_count).filter
      (fun j => (s.tasks ((s.current_task + 1 + j) % s.task_count)).eligible) ↔
      (j < s.task_count ∧
        (s.tasks ((s.current_task + 1 + j) % s.task_count)).eligible = true) := by
    intro j
    rw [List.mem_filter, List.mem_range]
  have hJsort : List.Pairwise (· < ·)
      ((List.range s.task_count).filter
        (fun j => (s.tasks ((s.current_task + 1 + j) % s.task_count)).eligible)) :=
    List.Pairwise.sublist (List.filter_sublist _) (List.pairwise_lt_range _)
  have hmem : ∀ i, i ∈ cycleOrder s ↔
      (i < s.task_count ∧ (s.tasks i).eligible = true) := by
    intro i
    rw [hco]
    constructor
    · intro hm
      obtain ⟨j, hj, hji⟩ := List.mem_map.mp hm
      have := (hJmem j).mp hj
      rw [← hji]
      exact ⟨Nat.mod_lt _ (by omega), this.2⟩
    · intro ⟨hi, he⟩
      obtain ⟨j, hjn, hji⟩ := probe_surj hn s.current_task i hi
      refine List.mem_map.mpr ⟨j, (hJmem j).mpr ⟨hjn, by rw [hji]; exact he⟩, hji⟩
  have hnodup : (cycleOrder s).Nodup := by
    rw [hco]
    refine List.Nodup.map_on ?_ (hJsort.imp Nat.ne_of_lt)
    intro x hx y hy hxy
    exact probe_inj s.current_task ((hJmem x).mp hx).1 ((hJmem y).mp hy).1 hxy
  refine ⟨?_, hnodup, hmem⟩
  rw [hco]
  rcases hJ : (List.range s.task_count).filter
      (fun j => (s.tasks ((s.current_task + 1 + j) % s.task_count)).eligible)
    with _ | ⟨j0, rest⟩
  · rfl
  · have hj0 := (hJmem j0).mp (by rw [hJ]; exact List.mem_cons_self j0 rest)
    have hsort' : (∀ x ∈ rest, j0 < x) ∧ List.Pairwise (· < ·) rest :=
      List.pairwise_cons.mp (hJ ▸ hJsort)
    have hno : ∀ j', j' < j0 →
        (s.tasks ((s.current_task + 1 + j') % s.task_count)).eligible = false := by
      intro j' hj'
      by_contra hcon
      have htrue : (s.tasks ((s.current_task + 1 + j') % s.task_count)).eligible = true := by
        revert hcon
        cases (s.tasks ((s.current_task + 1 + j') % s.task_count)).eligible <;> simp
      have hm := (hJmem j').mpr ⟨by omega, htrue⟩
      rw [hJ] at hm
      rcases List.mem_cons.mp hm with hmb | hmr
      · omega
      · have := hsort'.1 _ hmr
        omega
    have hnext : yieldNext s = (s.current_task + 1 + j0) % s.task_count := by
      unfold yieldNext
      exact scanNext_spec _ _ j0 _ hj0.1 hj0.2 hno
    have helig_next : (s.tasks (yieldNext s)).eligible = true := by
      rw [hnext]
      exact hj0.2
    have hstep := yieldD_step s hn helig_next
    have htail := visit_chain s.task_count
      (fun i => (s.tasks i).eligible) s.current_task hn rest j0 (yieldD s)
      hstep.2.1 hstep.2.2 (by rw [hstep.1, hnext]) hj0.1 hsort'.2
      (fun j hj => ⟨hsort'.1 j hj, ((hJmem j).mp (by rw [hJ]; exact List.mem_cons_of_mem j0 hj)).1⟩)
      (fun j hbj hjn => by
        constructor
        · intro he
          have hm := (hJmem j).mpr ⟨hjn, he⟩
          rw [hJ] at hm
          rcases List.mem_cons.mp hm with hmb | hmr
          · omega
          · exact hmr
        · intro hm
          exact ((hJmem j).mp (by rw [hJ]; exact List.mem_cons_of_mem j0 hm)).2)
    simp only [List.length_map, List.length_cons, List.map_cons, visitSeq]
    rw [hstep.1, hnext, htail]

theorem claim_C2_witness :
    visitSeq sTwoStarted (cycleOrder sTwoStarted).length = cycleOrder sTwoStarted ∧
    (cycleOrder sTwoStarted).Nodup ∧
    ∀ i, i ∈ cycleOrder sTwoStarted ↔
      (i < sTwoStarted.task_count ∧ (sTwoStarted.tasks i).eligible = true) :=
  claim_C2_round_robin sTwoStarted (by decide)


end AvrScheduler
